import Mathlib

/-!
Verification of the combinatorial coherence engine of the taupy library:
a shallow embedding of `src/taupy/basic/core.py`, `src/taupy/basic/utilities.py`
and `src/taupy/simulation/simulation.py`, with theorems settling the frozen
claims about satisfiability counting and enumeration, SCCP adjacency, density,
argument construction, premise fetching and the simulation state machine.
-/

namespace Taupy

/-- Propositional formulas over atomic sentences (sympy symbols), with atoms
indexed by natural numbers.  `top` is the empty conjunction `And()` (sympy
`S.true`, taupy's `EmptyDebate`); sympy's n-ary `And` is represented by
nesting the binary `and`. -/
inductive Formula where
  | top : Formula
  | atom : Nat → Formula
  | not : Formula → Formula
  | and : Formula → Formula → Formula
  | implies : Formula → Formula → Formula
deriving DecidableEq

/-- Truth value of a formula under a total valuation of the atoms. -/
def eval (v : Nat → Bool) : Formula → Bool
  | .top => true
  | .atom a => v a
  | .not f => !(eval v f)
  | .and f g => eval v f && eval v g
  | .implies f g => !(eval v f) || eval v g

/-- The atoms occurring in a formula, with repetition (the multiset underlying
sympy's `formula.atoms()`). -/
def atomsOf : Formula → List Nat
  | .top => []
  | .atom a => [a]
  | .not f => atomsOf f
  | .and f g => atomsOf f ++ atomsOf g
  | .implies f g => atomsOf f ++ atomsOf g

/-- The declared variable order of the decision diagram built in
`utilities.py`: the formula's set of atoms (`formula.atoms()`) in the
canonical ascending order fixed by `sort_key`. -/
def atomList (f : Formula) : List Nat :=
  List.insertionSort (· ≤ ·) (atomsOf f).dedup

/-- sympy's `And(*premises)` of a list of formulas: `And()` is true, `And(x)`
is `x` itself, longer argument lists conjoin. -/
def conjoin : List Formula → Formula
  | [] => .top
  | [f] => f
  | f :: g :: rest => .and f (conjoin (g :: rest))

/-- A taupy `Argument`: sympy `Implies` whose premise slot is the conjunction
of the premise list and whose conclusion is a single formula
(`src/taupy/basic/core.py`, class `Argument`). -/
def ArgumentF (premises : List Formula) (conclusion : Formula) : Formula :=
  .implies (conjoin premises) conclusion

/-- A taupy `Debate`: sympy `And` of its arguments
(`src/taupy/basic/core.py`, class `Debate`). -/
def DebateF (arguments : List Formula) : Formula :=
  conjoin arguments

/-- All total truth-value vectors of a given length; the assignment space the
binary decision diagram ranges over once `n` variables are declared. -/
def allVectors : Nat → List (List Bool)
  | 0 => [[]]
  | n + 1 => (allVectors n).map (List.cons true) ++ (allVectors n).map (List.cons false)

/-- The valuation obtained by overriding `v` so that the i-th declared
variable receives the i-th component of the vector; this is how a model
vector of the diagram is read back as a dictionary over the atoms. -/
def assignment : (Nat → Bool) → List Nat → List Bool → Nat → Bool
  | v, [], _ => v
  | v, _ :: _, [] => v
  | v, p :: ps, b :: bs => assignment (Function.update v p b) ps bs

/-- Shannon-style model count of the decision diagram: branch on each declared
variable in order and count the satisfying leaves.  This is the semantics of
`diagram.count(expression, nvars=len(formula.atoms()))`. -/
def bdd_count (f : Formula) (v : Nat → Bool) : List Nat → Nat
  | [] => if eval v f then 1 else 0
  | p :: ps => bdd_count f (Function.update v p true) ps +
      bdd_count f (Function.update v p false) ps

/-- `satisfiability_count(formula)` from `src/taupy/basic/utilities.py`
(lines 71-79): declare the formula's atoms, build the diagram of the CNF of
the formula (CNF conversion preserves the models and is dropped in the
semantic embedding) and count its models over `nvars = len(formula.atoms())`
variables. -/
def satisfiability_count (f : Formula) : Nat :=
  bdd_count f (fun _ => false) (atomList f)

/-- `satisfiability(formula, all_models=True)` from
`src/taupy/basic/utilities.py` (lines 81-93): the materialised list of every
total satisfying assignment over the formula's atoms
(`pick_iter(expression, care_vars=atoms)`), each model recorded as the vector
of its truth values along the declared (canonically sorted) variable order. -/
def satisfiability_all (f : Formula) : List (List Bool) :=
  (allVectors (atomList f).length).filter
    (fun bs => eval (assignment (fun _ => false) (atomList f) bs) f)

/-- `satisfiability(formula, all_models=False)` from
`src/taupy/basic/utilities.py` (lines 94-100): the existence check that asks
the diagram for a first model (`next(diagram.pick_iter(expression))`) and
returns `True` on success and `False` on `StopIteration`; an existential
(short-circuiting) search of the assignment space. -/
def satisfiability_exists (f : Formula) : Bool :=
  (allVectors (atomList f).length).any
    (fun bs => eval (assignment (fun _ => false) (atomList f) bs) f)

theorem allVectors_length (n : Nat) : (allVectors n).length = 2 ^ n := by
  induction n with
  | zero => rfl
  | succ n ih =>
    simp [allVectors, ih, Nat.pow_succ]
    omega

theorem mem_allVectors {n : Nat} {bs : List Bool} :
    bs ∈ allVectors n ↔ bs.length = n := by
  induction n generalizing bs with
  | zero => cases bs <;> simp [allVectors]
  | succ n ih =>
    cases bs with
    | nil => simp [allVectors]
    | cons b t =>
      cases b <;> simp [allVectors, ih]

theorem allVectors_nodup (n : Nat) : (allVectors n).Nodup := by
  induction n with
  | zero => simp [allVectors]
  | succ n ih =>
    refine List.Nodup.append ?_ ?_ ?_
    · exact ih.map (fun a b h => by injection h)
    · exact ih.map (fun a b h => by injection h)
    · intro x hx hy
      rcases List.mem_map.mp hx with ⟨a, _, rfl⟩
      rcases List.mem_map.mp hy with ⟨b, _, h⟩
      simp at h

theorem bdd_count_eq_filter (f : Formula) (v : Nat → Bool) (ps : List Nat) :
    bdd_count f v ps =
      ((allVectors ps.length).filter
        (fun bs => eval (assignment v ps bs) f)).length := by
  induction ps generalizing v with
  | nil =>
    simp only [bdd_count, allVectors, assignment]
    cases h : eval v f <;> simp [h]
  | cons p ps ih =>
    simp only [bdd_count, List.length_cons, allVectors, List.filter_append,
      List.length_append, List.filter_map, List.length_map]
    rw [ih (Function.update v p true), ih (Function.update v p false)]
    rfl

theorem count_eq_enum_length (f : Formula) :
    satisfiability_count f = (satisfiability_all f).length := by
  unfold satisfiability_count satisfiability_all
  exact bdd_count_eq_filter f (fun _ => false) (atomList f)

/-- Claim C1: for every debate (indeed every formula), the BDD-based model
count `satisfiability_count` agrees with the length of the model list
returned by `satisfiability(_, all_models=True)`. -/
theorem count_models_eq_length_enumeration (f : Formula) :
    satisfiability_count f = (satisfiability_all f).length :=
  count_eq_enum_length f

/-- Claim C8: the existence check `satisfiability(formula, all_models=False)`
returns `False` exactly when the formula has zero satisfying assignments,
and `True` otherwise; unsatisfiability is an ordinary boolean result (the
embedded function is total, no exceptional outcome exists). -/
theorem satisfiability_false_iff_no_models (f : Formula) :
    satisfiability_exists f = false ↔ satisfiability_count f = 0 := by
  rw [count_eq_enum_length, List.length_eq_zero]
  unfold satisfiability_exists satisfiability_all
  constructor
  · intro h
    rw [List.filter_eq_nil_iff]
    intro a ha
    have := List.any_eq_false.mp h a ha
    simpa using this
  · intro h
    rw [List.any_eq_false]
    intro a ha
    have := List.filter_eq_nil_iff.mp h a ha
    simpa using this

theorem count_le_two_pow (f : Formula) :
    satisfiability_count f ≤ 2 ^ (atomList f).length := by
  rw [count_eq_enum_length]
  calc (satisfiability_all f).length
      ≤ (allVectors (atomList f).length).length := List.length_filter_le _ _
    _ = 2 ^ (atomList f).length := allVectors_length _

/-- `Base.density` from `src/taupy/basic/core.py` (lines 30-32):
`Decimal((len(self.atoms()) - log2(satisfiability_count(self))) / len(self.atoms()))`,
embedded as the exact real number that the float computation approximates. -/
noncomputable def density (f : Formula) : ℝ :=
  (((atomList f).length : ℝ) - Real.logb 2 (satisfiability_count f)) /
    ((atomList f).length : ℝ)

/-- A satisfiable one-atom debate with exactly one surviving model: the
debate whose single argument has premise `a` and conclusion `¬a`
(sympy `Implies(a, Not(a))`), satisfied only by `a = False`. -/
def exampleUnitDebate : Formula :=
  DebateF [ArgumentF [.atom 0] (.not (.atom 0))]

/-- Claim C3, counterexample: `exampleUnitDebate` is a satisfiable debate with
one atom, yet its density is not below 1 (it is exactly 1), refuting the
claimed interval [0, 1). -/
theorem density_interval_counterexample :
    0 < satisfiability_count exampleUnitDebate
    ∧ atomList exampleUnitDebate ≠ []
    ∧ ¬ density exampleUnitDebate < 1 := by
  have hcount : satisfiability_count exampleUnitDebate = 1 := by decide
  have hatom : atomList exampleUnitDebate = [0] := by decide
  refine ⟨by omega, by simp [hatom], ?_⟩
  have : density exampleUnitDebate = 1 := by
    simp [density, hcount, hatom, Real.logb_one]
  simp [this]

/-- Claim C3 (amended): for every satisfiable debate with at least one atom,
density equals `(|atoms| − log2(count_models)) / |atoms|`, lies in the closed
interval [0, 1] (the upper end is attained exactly when one model survives,
so [0, 1) was too strong), and is 0 iff `count_models = 2^|atoms|`. -/
theorem density_bounds_amended (f : Formula)
    (hsat : 0 < satisfiability_count f) (hat : atomList f ≠ []) :
    density f = (((atomList f).length : ℝ) -
        Real.logb 2 (satisfiability_count f)) / ((atomList f).length : ℝ)
    ∧ 0 ≤ density f ∧ density f ≤ 1
    ∧ (density f = 0 ↔ satisfiability_count f = 2 ^ (atomList f).length) := by
  have hn : (0 : ℝ) < ((atomList f).length : ℝ) := by
    have := List.length_pos.mpr hat
    exact_mod_cast this
  have hσ1 : (1 : ℝ) ≤ (satisfiability_count f : ℝ) := by exact_mod_cast hsat
  have hσ0 : (0 : ℝ) < (satisfiability_count f : ℝ) := lt_of_lt_of_le one_pos hσ1
  have hσ2n : (satisfiability_count f : ℝ) ≤ (2 : ℝ) ^ (atomList f).length := by
    have := count_le_two_pow f
    exact_mod_cast this
  have hlogtop : Real.logb 2 ((2 : ℝ) ^ (atomList f).length) =
      ((atomList f).length : ℝ) := by
    rw [Real.logb_pow, Real.logb_self_eq_one (by norm_num : (1:ℝ) < 2)]
    ring
  have hlog0 : 0 ≤ Real.logb 2 (satisfiability_count f) :=
    Real.logb_nonneg (by norm_num) hσ1
  have hlogn : Real.logb 2 (satisfiability_count f) ≤ ((atomList f).length : ℝ) := by
    rw [← hlogtop]
    exact Real.logb_le_logb_of_le (by norm_num : (1:ℝ) < 2) hσ0 hσ2n
  refine ⟨rfl, ?_, ?_, ?_⟩
  · exact div_nonneg (by linarith) (le_of_lt hn)
  · unfold density
    rw [div_le_one hn]
    linarith
  · unfold density
    rw [div_eq_zero_iff]
    constructor
    · intro h
      have hlogeq : Real.logb 2 (satisfiability_count f) =
          ((atomList f).length : ℝ) := by
        rcases h with h | h
        · linarith
        · exact absurd h (ne_of_gt hn)
      have : (satisfiability_count f : ℝ) = (2 : ℝ) ^ (atomList f).length := by
        have h2 : (2 : ℝ) ^ Real.logb 2 (satisfiability_count f) =
            (satisfiability_count f : ℝ) :=
          Real.rpow_logb (by norm_num) (by norm_num) hσ0
        rw [hlogeq] at h2
        rw [← h2, Real.rpow_natCast]
      exact_mod_cast this
    · intro h
      left
      have : (satisfiability_count f : ℝ) = (2 : ℝ) ^ (atomList f).length := by
        exact_mod_cast congrArg (Nat.cast : Nat → ℝ) h
      rw [this, hlogtop]
      ring

/-- Claim C3, witness: the amended bounds evaluated at the concrete satisfiable
one-atom debate `exampleUnitDebate`. -/
theorem density_bounds_witness :
    0 ≤ density exampleUnitDebate ∧ density exampleUnitDebate ≤ 1 :=
  ⟨(density_bounds_amended exampleUnitDebate (by decide) (by decide)).2.1,
   (density_bounds_amended exampleUnitDebate (by decide) (by decide)).2.2.1⟩

/-- `iter_to_string` from `src/taupy/basic/utilities.py` (lines 53-57):
`"".join(str(i) for i in l)`; on the single-digit entries it is applied to,
`str` yields the digit character. -/
def iter_to_string (l : List Nat) : String :=
  String.mk (l.map Nat.digitChar)

/-- `neighbours_of_list` from `src/taupy/basic/utilities.py` (lines 62-69):
for every index of the position, the list with that entry complemented
(`l[:i] + [complements[l[i]]] + l[i+1:]` for `i in range(len(l))`, where
`complements = [1, 0]`). -/
def neighbours_of_list (l : List Nat) : List (List Nat) :=
  (List.range l.length).map
    (fun i => l.take i ++ [[1, 0].getD (l.getD i 0) 0] ++ l.drop (i + 1))

/-- A model as its bit list: `1 if value == True else 0` per atom along the
canonically sorted atom order (`Base.sccp`, `src/taupy/basic/core.py` line 24). -/
def toBitVector (p : List Bool) : List Nat :=
  p.map (fun b => if b then 1 else 0)

/-- The `_bits` list of `Base.sccp`: every model of the debate as a bit list. -/
def debate_bits (f : Formula) : List (List Nat) :=
  (satisfiability_all f).map toBitVector

/-- `Base.sccp` from `src/taupy/basic/core.py` (lines 11-28): the adjacency
dictionary of the space of coherent and complete positions, as the
association list sending each model's bit-string encoding to the encodings
of those complement-one-entry neighbours that are models themselves. -/
def sccp (f : Formula) : List (String × List String) :=
  (debate_bits f).map (fun b =>
    (iter_to_string b,
     ((neighbours_of_list b).filter (fun x => x ∈ debate_bits f)).map
       iter_to_string))

/-- Number of coordinates at which two equal-length vectors differ. -/
def hamming : List Nat → List Nat → Nat
  | [], _ => 0
  | _, [] => 0
  | a :: l1, b :: l2 => (if a = b then 0 else 1) + hamming l1 l2

theorem take_append_drop_eq_set (l : List Nat) (i : Nat) (v : Nat)
    (h : i < l.length) :
    l.take i ++ [v] ++ l.drop (i + 1) = l.set i v := by
  induction l generalizing i with
  | nil => simp at h
  | cons a t ih =>
    cases i with
    | zero => simp
    | succ i =>
      simp only [List.take_succ_cons, List.drop_succ_cons, List.set_cons_succ,
        List.cons_append, List.cons.injEq, true_and]
      exact ih i (by simpa using h)

theorem mem_neighbours_iff {l x : List Nat} :
    x ∈ neighbours_of_list l ↔
      ∃ i, i < l.length ∧ x = l.set i ([1, 0].getD (l.getD i 0) 0) := by
  unfold neighbours_of_list
  simp only [List.mem_map, List.mem_range]
  constructor
  · rintro ⟨i, hi, rfl⟩
    exact ⟨i, hi, take_append_drop_eq_set l i _ hi⟩
  · rintro ⟨i, hi, rfl⟩
    exact ⟨i, hi, take_append_drop_eq_set l i _ hi⟩

theorem hamming_self (l : List Nat) : hamming l l = 0 := by
  induction l with
  | nil => rfl
  | cons a t ih => simp [hamming, ih]

theorem hamming_comm (a b : List Nat) : hamming a b = hamming b a := by
  induction a generalizing b with
  | nil => cases b <;> rfl
  | cons x t ih =>
    cases b with
    | nil => rfl
    | cons y s =>
      simp only [hamming, ih s]
      by_cases h : x = y
      · subst h
        rfl
      · rw [if_neg h, if_neg (fun hh => h hh.symm)]

theorem hamming_eq_zero {a b : List Nat} (hlen : a.length = b.length) :
    hamming a b = 0 ↔ a = b := by
  induction a generalizing b with
  | nil => cases b with
    | nil => simp [hamming]
    | cons y s => simp at hlen
  | cons x t ih =>
    cases b with
    | nil => simp at hlen
    | cons y s =>
      by_cases hxy : x = y
      · subst hxy
        simp [hamming, ih (by simpa using hlen)]
      · simp [hamming, hxy]

theorem bit_flip_ne {x : Nat} (hx : x = 0 ∨ x = 1) : [1, 0].getD x 0 ≠ x := by
  rcases hx with rfl | rfl <;> decide

theorem hamming_set_flip {l : List Nat} (hl : ∀ e ∈ l, e = 0 ∨ e = 1)
    {i : Nat} (hi : i < l.length) :
    hamming l (l.set i ([1, 0].getD (l.getD i 0) 0)) = 1 := by
  induction l generalizing i with
  | nil => simp at hi
  | cons a t ih =>
    cases i with
    | zero =>
      have ha := hl a (by simp)
      simp only [List.getD_cons_zero, List.set_cons_zero, hamming, hamming_self]
      have hne := bit_flip_ne ha
      rw [if_neg (fun h => hne h.symm)]
    | succ i =>
      simp only [List.getD_cons_succ, List.set_cons_succ, hamming,
        eq_self_iff_true, if_true, Nat.zero_add]
      exact ih (fun e he => hl e (by simp [he])) (by simpa using hi)

theorem hamming_one_eq_set {a b : List Nat}
    (ha : ∀ e ∈ a, e = 0 ∨ e = 1) (hb : ∀ e ∈ b, e = 0 ∨ e = 1)
    (hlen : a.length = b.length) (h1 : hamming a b = 1) :
    ∃ i, i < a.length ∧ b = a.set i ([1, 0].getD (a.getD i 0) 0) := by
  induction a generalizing b with
  | nil =>
    cases b with
    | nil => simp [hamming] at h1
    | cons y s => simp at hlen
  | cons x t ih =>
    cases b with
    | nil => simp at hlen
    | cons y s =>
      by_cases hxy : x = y
      · subst hxy
        simp only [hamming, eq_self_iff_true, if_true, Nat.zero_add] at h1
        obtain ⟨i, hi, rfl⟩ := ih (fun e he => ha e (by simp [he]))
          (fun e he => hb e (by simp [he])) (by simpa using hlen) h1
        exact ⟨i + 1, by simpa using Nat.succ_lt_succ hi, by simp⟩
      · have hx := ha x (by simp)
        have hy := hb y (by simp)
        have hflip : y = [1, 0].getD x 0 := by
          rcases hx with rfl | rfl <;> rcases hy with rfl | rfl <;>
            first | rfl | exact absurd rfl hxy
        simp only [hamming, if_neg hxy] at h1
        have hts : t = s := (hamming_eq_zero (by simpa using hlen)).mp (by omega)
        subst hts
        exact ⟨0, by simp, by simp [hflip]⟩

theorem toBitVector_bits {p : List Bool} : ∀ e ∈ toBitVector p, e = 0 ∨ e = 1 := by
  intro e he
  rcases List.mem_map.mp he with ⟨b, _, rfl⟩
  cases b <;> simp

theorem toBitVector_inj {p q : List Bool} (h : toBitVector p = toBitVector q) :
    p = q := by
  refine List.map_injective_iff.mpr ?_ h
  intro a b hab
  cases a <;> cases b <;> simp_all

theorem bitchar_inj {x y : Nat} (hx : x = 0 ∨ x = 1) (hy : y = 0 ∨ y = 1)
    (h : Nat.digitChar x = Nat.digitChar y) : x = y := by
  rcases hx with rfl | rfl <;> rcases hy with rfl | rfl <;>
    first | rfl | exact absurd h (by decide)

theorem iter_to_string_inj {a b : List Nat}
    (ha : ∀ e ∈ a, e = 0 ∨ e = 1) (hb : ∀ e ∈ b, e = 0 ∨ e = 1)
    (h : iter_to_string a = iter_to_string b) : a = b := by
  have hmap : a.map Nat.digitChar = b.map Nat.digitChar := by
    simpa using congrArg String.data h
  induction a generalizing b with
  | nil =>
    cases b with
    | nil => rfl
    | cons y s => simp at hmap
  | cons x t ih =>
    cases b with
    | nil => simp at hmap
    | cons y s =>
      simp only [List.map_cons, List.cons.injEq] at hmap
      obtain ⟨hxy, hts⟩ := hmap
      have : x = y := bitchar_inj (ha x (by simp)) (hb y (by simp)) hxy
      subst this
      have : t = s := ih (fun e he => ha e (by simp [he]))
        (fun e he => hb e (by simp [he])) (congrArg String.mk hts) hts
      simp [this]

theorem key_inj {p q : List Bool}
    (h : iter_to_string (toBitVector p) = iter_to_string (toBitVector q)) :
    p = q :=
  toBitVector_inj (iter_to_string_inj toBitVector_bits toBitVector_bits h)

theorem mem_satisfiability_all_length {f : Formula} {p : List Bool}
    (hp : p ∈ satisfiability_all f) : p.length = (atomList f).length := by
  unfold satisfiability_all at hp
  exact mem_allVectors.mp (List.mem_of_mem_filter hp)

theorem sccp_adj (f : Formula) (A B : List Bool) :
    (∃ ns, (iter_to_string (toBitVector A), ns) ∈ sccp f
        ∧ iter_to_string (toBitVector B) ∈ ns)
      ↔ (A ∈ satisfiability_all f ∧ B ∈ satisfiability_all f
          ∧ hamming (toBitVector A) (toBitVector B) = 1) := by
  constructor
  · rintro ⟨ns, hns, hBin⟩
    unfold sccp at hns
    rcases List.mem_map.mp hns with ⟨b, hbmem, hpair⟩
    rcases List.mem_map.mp hbmem with ⟨p, hpmem, rfl⟩
    have hkey : iter_to_string (toBitVector p) = iter_to_string (toBitVector A) :=
      congrArg Prod.fst hpair
    have hpA : p = A := key_inj hkey
    subst hpA
    have hns' : ns = ((neighbours_of_list (toBitVector p)).filter
        (fun x => x ∈ debate_bits f)).map iter_to_string :=
      (congrArg Prod.snd hpair).symm
    subst hns'
    rcases List.mem_map.mp hBin with ⟨x, hxfil, hxkey⟩
    have hxnb := List.mem_of_mem_filter hxfil
    have hxbits : x ∈ debate_bits f := by
      have := List.of_mem_filter hxfil
      simpa using this
    rcases List.mem_map.mp hxbits with ⟨q, hqmem, rfl⟩
    have hqB : q = B := key_inj hxkey
    subst hqB
    refine ⟨hpmem, hqmem, ?_⟩
    rcases mem_neighbours_iff.mp hxnb with ⟨i, hi, hset⟩
    rw [hset]
    exact hamming_set_flip toBitVector_bits hi
  · rintro ⟨hA, hB, hham⟩
    have hlen : (toBitVector A).length = (toBitVector B).length := by
      unfold toBitVector
      rw [List.length_map, List.length_map,
        mem_satisfiability_all_length hA, mem_satisfiability_all_length hB]
    obtain ⟨i, hi, hset⟩ :=
      hamming_one_eq_set toBitVector_bits toBitVector_bits hlen hham
    refine ⟨((neighbours_of_list (toBitVector A)).filter
        (fun x => x ∈ debate_bits f)).map iter_to_string, ?_, ?_⟩
    · unfold sccp
      exact List.mem_map.mpr ⟨toBitVector A,
        List.mem_map.mpr ⟨A, hA, rfl⟩, rfl⟩
    · refine List.mem_map.mpr ⟨toBitVector B, ?_, rfl⟩
      refine List.mem_filter.mpr ⟨?_, ?_⟩
      · exact mem_neighbours_iff.mpr ⟨i, hi, hset⟩
      · simp only [decide_eq_true_eq]
        exact List.mem_map.mpr ⟨B, hB, rfl⟩

/-- Claim C4: in the adjacency dictionary returned by `sccp`, the encoding of
a total assignment `B` appears in the neighbour list of a total assignment
`A` iff `A` and `B` are both satisfying models of the debate and their bit
vectors over the sorted atom order differ in exactly one coordinate; and the
adjacency relation is symmetric. -/
theorem sccp_adjacency_iff (f : Formula) (A B : List Bool) :
    ((∃ ns, (iter_to_string (toBitVector A), ns) ∈ sccp f
        ∧ iter_to_string (toBitVector B) ∈ ns)
      ↔ (A ∈ satisfiability_all f ∧ B ∈ satisfiability_all f
          ∧ hamming (toBitVector A) (toBitVector B) = 1))
    ∧ ((∃ ns, (iter_to_string (toBitVector A), ns) ∈ sccp f
        ∧ iter_to_string (toBitVector B) ∈ ns)
      → (∃ ns, (iter_to_string (toBitVector B), ns) ∈ sccp f
        ∧ iter_to_string (toBitVector A) ∈ ns)) := by
  refine ⟨sccp_adj f A B, ?_⟩
  intro h
  obtain ⟨hA, hB, hham⟩ := (sccp_adj f A B).mp h
  exact (sccp_adj f B A).mpr ⟨hB, hA, by rw [hamming_comm]; exact hham⟩

/-- The debate with the single argument `a → b`: three models. -/
def exampleImplDebate : Formula :=
  DebateF [ArgumentF [.atom 0] (.atom 1)]

/-- Claim C4, witness: in the debate `a → b`, the model `a=F, b=T` is listed
as an SCCP neighbour of the model `a=F, b=F`. -/
theorem sccp_adjacency_witness :
    ∃ ns, (iter_to_string (toBitVector [false, false]), ns) ∈ sccp exampleImplDebate
      ∧ iter_to_string (toBitVector [false, true]) ∈ ns :=
  (sccp_adjacency_iff exampleImplDebate [false, false] [false, true]).1.mpr
    ⟨by decide, by decide, by decide⟩

/-- What a Python caller may pass in the premise slot of the `Argument`
constructor: a formula, or a raw pair such as `(a, b)`. -/
inductive PremiseInput where
  | form (f : Formula)
  | pair (a b : Formula)
deriving DecidableEq

/-- What sympy's argument sympification turns the premise slot into: a Boolean
formula stays a formula, and a Python pair becomes a (non-Boolean) sympy
`Tuple` object, which `Implies.eval` stores untouched. -/
inductive SympifiedPremise where
  | form (f : Formula)
  | tupleVal (a b : Formula)
deriving DecidableEq

/-- The `Argument` constructor from `src/taupy/basic/core.py` (lines 41-45):
the class body is `pass`, so construction is exactly sympy's
`Implies.__new__`, which sympifies both arguments and stores them; no premise
validation of any kind is run, so no input is ever rejected. -/
def argument_construct (p : PremiseInput) (c : Formula) :
    Except String (SympifiedPremise × Formula) :=
  match p with
  | .form f => Except.ok (.form f, c)
  | .pair a b => Except.ok (.tupleVal a b, c)

/-- Claim C2, evaluation at the failing input: constructing an Argument from
the malformed two-tuple premise `(a, b)` with conclusion `c` succeeds and
silently stores the tuple, instead of raising the error the claim (and the
class's own docstring, "Must protect against Inputs like Argument((a,b),c)!")
requires. -/
theorem argument_tuple_silently_accepted :
    argument_construct (.pair (.atom 0) (.atom 1)) (.atom 2)
      = Except.ok (.tupleVal (.atom 0) (.atom 1), .atom 2)
    ∧ ∀ p c, ∃ r, argument_construct p c = Except.ok r := by
  refine ⟨rfl, ?_⟩
  intro p c
  cases p <;> exact ⟨_, rfl⟩

/-- `sample(population, k)` of `random.sample`, as used by
`pick_random_positions_from_debate`: the elements of the population at `k`
randomly chosen distinct indices; the random index choice is an explicit
argument of the embedding. -/
def sample_positions (population : List (List Bool)) (idxs : List Nat) :
    List (List Bool) :=
  idxs.map (fun i => population.getD i [])

/-- `pick_random_positions_from_debate(n, debate)` from
`src/taupy/basic/utilities.py` (lines 172-182): if the debate's model count
(`satisfiability_count`, sparing the SCCP construction) is at least `n`,
sample `n` positions from the enumerated models, else return `False`
(embedded as `none`). -/
def pick_random_positions_from_debate (n : Nat) (f : Formula)
    (idxs : List Nat) : Option (List (List Bool)) :=
  if satisfiability_count f ≥ n then
    some (sample_positions (satisfiability_all f) idxs)
  else
    none

theorem satisfiability_all_nodup (f : Formula) : (satisfiability_all f).Nodup :=
  (allVectors_nodup (atomList f).length).filter _

/-- Claim C9: `pick_random_positions_from_debate(n, D)` returns `False` (not
an exception) whenever `count_models(D) < n`; otherwise, for any draw of `n`
distinct valid indices, it returns a list of exactly `n` distinct total
assignments, each of which is a model of `D`. -/
theorem pick_random_positions_spec (n : Nat) (f : Formula) (idxs : List Nat) :
    (satisfiability_count f < n → pick_random_positions_from_debate n f idxs = none)
    ∧ (idxs.Nodup → idxs.length = n →
        (∀ i ∈ idxs, i < (satisfiability_all f).length) →
        ∃ l, pick_random_positions_from_debate n f idxs = some l
          ∧ l.length = n ∧ l.Nodup
          ∧ ∀ m ∈ l, m ∈ satisfiability_all f
              ∧ eval (assignment (fun _ => false) (atomList f) m) f = true) := by
  constructor
  · intro hlt
    unfold pick_random_positions_from_debate
    rw [if_neg (by omega)]
  · intro hnd hlen hvalid
    have hsub : idxs.toFinset ⊆ Finset.range (satisfiability_all f).length := by
      intro i hi
      rw [Finset.mem_range]
      exact hvalid i (List.mem_toFinset.mp hi)
    have hcard := Finset.card_le_card hsub
    rw [List.toFinset_card_of_nodup hnd, Finset.card_range, hlen] at hcard
    have hcount : satisfiability_count f ≥ n := by
      rw [count_eq_enum_length]
      exact hcard
    refine ⟨sample_positions (satisfiability_all f) idxs, ?_, ?_, ?_, ?_⟩
    · unfold pick_random_positions_from_debate
      rw [if_pos hcount]
    · simp [sample_positions, hlen]
    · refine List.Nodup.map_on ?_ hnd
      intro i hi j hj hij
      have hi' := hvalid i hi
      have hj' := hvalid j hj
      rw [List.getD_eq_getElem _ _ hi', List.getD_eq_getElem _ _ hj'] at hij
      exact (List.Nodup.getElem_inj_iff (satisfiability_all_nodup f)).mp hij
    · intro m hm
      rcases List.mem_map.mp hm with ⟨i, hi, rfl⟩
      have hi' := hvalid i hi
      have hmem : (satisfiability_all f).getD i [] ∈ satisfiability_all f := by
        rw [List.getD_eq_getElem _ _ hi']
        exact List.getElem_mem hi'
      refine ⟨hmem, ?_⟩
      unfold satisfiability_all at hmem
      exact (List.mem_filter.mp hmem).2

/-- Claim C9, witness: evaluated on the debate `a → b` (three models): a
request for 5 positions returns `False` (none), and a request for 2 positions
at indices 0 and 1 returns two distinct models of the debate. -/
theorem pick_random_positions_witness :
    pick_random_positions_from_debate 5 exampleImplDebate [0] = none
    ∧ ∃ l, pick_random_positions_from_debate 2 exampleImplDebate [0, 1] = some l
        ∧ l.length = 2 ∧ l.Nodup
        ∧ ∀ m ∈ l, m ∈ satisfiability_all exampleImplDebate
            ∧ eval (assignment (fun _ => false) (atomList exampleImplDebate) m)
                exampleImplDebate = true :=
  ⟨(pick_random_positions_spec 5 exampleImplDebate [0]).1 (by decide),
   (pick_random_positions_spec 2 exampleImplDebate [0, 1]).2 (by decide)
     (by decide) (by decide)⟩

/-- sympy's `Not` smart constructor on the sentence pool: double negations
cancel (`Not(Not(p))` is `p`), as relied on by the premise-candidate pool
`sentencepool + [Not(i) for i in sentencepool]`. -/
def sNot : Formula → Formula
  | .not f => f
  | f => .not f

/-- The admissibility test inside the `fetch_premises` loop
(`src/taupy/basic/utilities.py`, lines 215-222): the drawn combination is not
in `exclude`, and no drawn sentence occurs together with its negation. -/
def premise_ok (exclude : List (List Formula)) (i : List Formula) : Bool :=
  !(exclude.contains i) && i.all (fun x => !(i.contains (sNot x)))

/-- The `length` argument of `fetch_premises`: a plain integer, or a
collection to pick from (`n = choice(length)` with a `TypeError` fallback to
`n = length`). -/
inductive LengthSpec where
  | single (n : Nat)
  | multiple (ns : List Nat)

/-- The drawn premise length: the integer itself, or the randomly chosen
element of the collection (the random index is the explicit argument `r`). -/
def chosen_length : LengthSpec → Nat → Nat
  | .single n, _ => n
  | .multiple ns, r => ns.getD r 0

/-- The `while True` loop of `fetch_premises`: each round draws the next
combination from the random stream `draws`; an admissible draw is returned,
otherwise the try counter advances, and after the allotted number of tries
the loop gives up with `False` (none).  The remaining allotment is the
structural `fuel` argument. -/
def fetch_premises_loop (exclude : List (List Formula)) (draws : Nat → List Formula) :
    Nat → Nat → Option (List Formula)
  | _, 0 => none
  | j, fuel + 1 =>
    if premise_ok exclude (draws j) then some (draws j)
    else fetch_premises_loop exclude draws (j + 1) fuel

/-- `fetch_premises(pool, length, exclude)` from
`src/taupy/basic/utilities.py` (lines 193-225): run the drawing loop with at
most `comb(len(pool), n)` tries, where `n` is the chosen length. -/
def fetch_premises (pool : List Formula) (spec : LengthSpec)
    (exclude : List (List Formula)) (r : Nat) (draws : Nat → List Formula) :
    Option (List Formula) :=
  fetch_premises_loop exclude draws 0 (Nat.choose pool.length (chosen_length spec r))

theorem fetch_premises_loop_some {exclude : List (List Formula)}
    {draws : Nat → List Formula} :
    ∀ fuel j res, fetch_premises_loop exclude draws j fuel = some res →
      ∃ t, res = draws t ∧ premise_ok exclude res = true := by
  intro fuel
  induction fuel with
  | zero => intro j res h; simp [fetch_premises_loop] at h
  | succ fuel ih =>
    intro j res h
    unfold fetch_premises_loop at h
    by_cases hok : premise_ok exclude (draws j) = true
    · rw [if_pos hok] at h
      obtain rfl : draws j = res := by injection h
      exact ⟨j, rfl, hok⟩
    · rw [if_neg hok] at h
      exact ih (j + 1) res h

theorem fetch_premises_loop_none {exclude : List (List Formula)}
    {draws : Nat → List Formula} :
    ∀ fuel j, (∀ t, j ≤ t → t < j + fuel → premise_ok exclude (draws t) = false) →
      fetch_premises_loop exclude draws j fuel = none := by
  intro fuel
  induction fuel with
  | zero => intro j _; rfl
  | succ fuel ih =>
    intro j hall
    unfold fetch_premises_loop
    rw [if_neg (by simp [hall j (le_refl j) (by omega)])]
    exact ih (j + 1) (fun t ht1 ht2 => hall t (by omega) (by omega))

theorem premise_ok_iff {exclude : List (List Formula)} {i : List Formula} :
    premise_ok exclude i = true ↔ i ∉ exclude ∧ ∀ x ∈ i, sNot x ∉ i := by
  unfold premise_ok
  simp

/-- Claim C10: assuming the drawn combinations are (as `random_combination`
guarantees) length-`n` subcombinations of the pool, every non-`False` result
of `fetch_premises` is a combination from the pool of the chosen length
(the requested integer, or a member of the requested collection), is not in
`exclude`, and holds no sentence together with its negation; and if no
admissible combination shows up within `comb(|pool|, n)` tries the function
returns `False` instead of looping on. -/
theorem fetch_premises_spec (pool : List Formula) (spec : LengthSpec)
    (exclude : List (List Formula)) (r : Nat) (draws : Nat → List Formula)
    (hdraws : ∀ j, (draws j).Sublist pool ∧ (draws j).length = chosen_length spec r) :
    (∀ res, fetch_premises pool spec exclude r draws = some res →
        res.Sublist pool ∧ res.length = chosen_length spec r
        ∧ (∀ m, spec = .single m → res.length = m)
        ∧ (∀ ns, spec = .multiple ns → r < ns.length → res.length ∈ ns)
        ∧ res ∉ exclude ∧ ∀ x ∈ res, sNot x ∉ res)
    ∧ ((∀ t, t < Nat.choose pool.length (chosen_length spec r) →
          premise_ok exclude (draws t) = false) →
        fetch_premises pool spec exclude r draws = none) := by
  constructor
  · intro res hres
    obtain ⟨t, rfl, hok⟩ := fetch_premises_loop_some _ _ _ hres
    obtain ⟨hnotex, hnopair⟩ := premise_ok_iff.mp hok
    obtain ⟨hsub, hlen⟩ := hdraws t
    refine ⟨hsub, hlen, ?_, ?_, hnotex, hnopair⟩
    · rintro m rfl
      simpa [chosen_length] using hlen
    · rintro ns rfl hr
      rw [hlen]
      simp only [chosen_length]
      rw [List.getD_eq_getElem _ _ hr]
      exact List.getElem_mem hr
  · intro hall
    exact fetch_premises_loop_none _ 0 (fun t ht1 ht2 => hall t (by omega))

/-- Claim C10, witness: from the pool `[a, b]` with requested length 1 and a
stream that keeps drawing `[a]`, the fetched result `[a]` is a length-1
combination of the pool, outside the (empty) exclusion list, and pairs no
sentence with its negation. -/
theorem fetch_premises_witness :
    [Formula.atom 0].Sublist [Formula.atom 0, Formula.atom 1]
    ∧ [Formula.atom 0].length = chosen_length (.single 1) 0
    ∧ (∀ m, LengthSpec.single 1 = .single m → [Formula.atom 0].length = m)
    ∧ (∀ ns, LengthSpec.single 1 = .multiple ns → 0 < ns.length →
        [Formula.atom 0].length ∈ ns)
    ∧ [Formula.atom 0] ∉ ([] : List (List Formula))
    ∧ ∀ x ∈ [Formula.atom 0], sNot x ∉ [Formula.atom 0] :=
  (fetch_premises_spec [Formula.atom 0, Formula.atom 1] (.single 1) [] 0
      (fun _ => [Formula.atom 0])
      (by
        intro j
        refine ⟨?_, rfl⟩
        show [Formula.atom 0].Sublist [Formula.atom 0, Formula.atom 1]
        decide)).1
    [Formula.atom 0] (by decide)

/-- An agent position: a partial mapping from sentences to truth values,
absence meaning suspended judgement (`src/taupy/basic/positions.py` is not in
the staged sources; the mapping view follows the spec's data model). -/
abbrev Pos := Nat → Option Bool

/-- The mutable state of a `Simulation` (`src/taupy/simulation/simulation.py`):
the simulation object is itself the list of debate snapshots (`history`),
alongside the sentence pool, its maximal extension, the per-step position
sets and the log. -/
structure SimState where
  sentencepool : List Nat
  maxSentencepool : List Nat
  history : List Formula
  positions : List (List Pos)
  log : List String

/-- The candidate sentences of a `new_sentence` event:
`set(self.max_sentencepool) - set(self.sentencepool)`
(`Simulation.run`, lines 228-229). -/
def sentence_candidates (st : SimState) : List Nat :=
  st.maxSentencepool.filter (fun s => s ∉ st.sentencepool)

/-- One position's reaction to a newly inserted sentence (`Simulation.run`,
lines 244-252): the deep copy of the position either stays as it is
(suspending on the new sentence) or additionally assigns the randomly chosen
truth value to it; the random outcome is the explicit argument. -/
def expand_position (p : Pos) (sel : Nat) : Option Bool → Pos
  | none => p
  | some v => Function.update p sel (some v)

/-- The `new_sentence` branch of `Simulation.run`
(`src/taupy/simulation/simulation.py`, lines 223-261): if the pool can still
grow, append the chosen candidate to the pool, log it, carry the last debate
snapshot forward unchanged, and append the expanded position set in which
every previous position reacts to the new sentence; otherwise only log the
exhaustion.  `sel` stands for `choice(list(sentence_candidates))` and
`rand i` for the two nested `choice` calls of position `i`. -/
def new_sentence_event (st : SimState) (sel : Nat) (rand : Nat → Option Bool) :
    SimState :=
  if 0 < (sentence_candidates st).length then
    { st with
      sentencepool := st.sentencepool ++ [sel]
      log := st.log ++
        ["Sentence " ++ toString sel ++ " added to the sentence pool."]
      history := st.history ++ [st.history.getLastD Formula.top]
      positions := st.positions ++
        [(List.range (st.positions.getLastD []).length).map
          (fun i => expand_position ((st.positions.getLastD []).getD i
            (fun _ => none)) sel (rand i))] }
  else
    { st with
      log := st.log ++
        ["Tried to insert a new sentence to the debate but maximum extension was reached."] }

/-- Claim C6: when a `new_sentence` event fires and the pool can still grow
(and, as in every run whose positions range over the current pool, no
position has yet judged the incoming sentence), exactly the chosen candidate
sentence is appended to the pool, the appended debate snapshot is the
previous one unchanged, and every prior position is carried over either
unchanged or extended only with a truth value on the new sentence, no
previously assigned coordinate changing; with the pool exhausted, pool,
history and positions stay untouched and only a log entry is appended. -/
theorem new_sentence_frame_effects (st : SimState) (sel : Nat)
    (rand : Nat → Option Bool) :
    ((sel ∈ sentence_candidates st ∧
        ∀ p ∈ st.positions.getLastD [], p sel = none) →
      (new_sentence_event st sel rand).sentencepool = st.sentencepool ++ [sel]
      ∧ sel ∈ st.maxSentencepool ∧ sel ∉ st.sentencepool
      ∧ (new_sentence_event st sel rand).history =
          st.history ++ [st.history.getLastD Formula.top]
      ∧ ∃ newPs, (new_sentence_event st sel rand).positions =
            st.positions ++ [newPs]
          ∧ newPs.length = (st.positions.getLastD []).length
          ∧ ∀ i, i < newPs.length →
              (newPs.getD i (fun _ => none) =
                  (st.positions.getLastD []).getD i (fun _ => none)
                ∨ ∃ v, newPs.getD i (fun _ => none) =
                    Function.update ((st.positions.getLastD []).getD i
                      (fun _ => none)) sel (some v))
              ∧ (∀ t, t ≠ sel →
                  newPs.getD i (fun _ => none) t =
                    (st.positions.getLastD []).getD i (fun _ => none) t)
              ∧ ∀ t b, (st.positions.getLastD []).getD i (fun _ => none) t = some b →
                  newPs.getD i (fun _ => none) t = some b)
    ∧ (sentence_candidates st = [] →
        (new_sentence_event st sel rand).sentencepool = st.sentencepool
        ∧ (new_sentence_event st sel rand).history = st.history
        ∧ (new_sentence_event st sel rand).positions = st.positions
        ∧ (new_sentence_event st sel rand).log = st.log ++
            ["Tried to insert a new sentence to the debate but maximum extension was reached."]) := by
  constructor
  · rintro ⟨hsel, hfresh⟩
    have hpos : 0 < (sentence_candidates st).length :=
      List.length_pos.mpr (List.ne_nil_of_mem hsel)
    have hmax : sel ∈ st.maxSentencepool ∧ sel ∉ st.sentencepool := by
      have := List.mem_filter.mp hsel
      constructor
      · exact this.1
      · simpa using this.2
    unfold new_sentence_event
    rw [if_pos hpos]
    refine ⟨rfl, hmax.1, hmax.2, rfl, ?_⟩
    refine ⟨_, rfl, by simp, ?_⟩
    intro i hi
    rw [List.length_map, List.length_range] at hi
    have hget : ((List.range (st.positions.getLastD []).length).map
        (fun i => expand_position ((st.positions.getLastD []).getD i
          (fun _ => none)) sel (rand i))).getD i (fun _ => none) =
        expand_position ((st.positions.getLastD []).getD i (fun _ => none))
          sel (rand i) := by
      have hilen : i < ((List.range (st.positions.getLastD []).length).map
          (fun i => expand_position ((st.positions.getLastD []).getD i
            (fun _ => none)) sel (rand i))).length := by
        simpa using hi
      rw [List.getD_eq_getElem _ _ hilen, List.getElem_map, List.getElem_range]
    rw [hget]
    set p := (st.positions.getLastD []).getD i (fun _ => none) with hp
    have hpfresh : p sel = none := by
      by_cases hlen : i < (st.positions.getLastD []).length
      · exact hfresh p (by rw [hp, List.getD_eq_getElem _ _ hlen]; exact List.getElem_mem hlen)
      · omega
    cases hr : rand i with
    | none =>
      refine ⟨Or.inl rfl, fun t _ => rfl, fun t b hb => hb⟩
    | some v =>
      refine ⟨Or.inr ⟨v, rfl⟩, ?_, ?_⟩
      · intro t ht
        simp [expand_position, Function.update, ht]
      · intro t b hb
        have ht : t ≠ sel := fun h => by rw [h, hpfresh] at hb; cases hb
        simp [expand_position, Function.update, ht]
        exact hb
  · intro hempty
    have hpos : ¬ 0 < (sentence_candidates st).length := by
      rw [hempty]
      simp
    unfold new_sentence_event
    rw [if_neg hpos]
    exact ⟨rfl, rfl, rfl, rfl⟩

/-- A concrete one-agent state whose pool can still grow to sentence 1. -/
def exampleSimState : SimState :=
  ⟨[0], [0, 1], [Formula.top], [[fun _ => none]], []⟩

/-- A concrete one-agent state whose pool is already at its maximum. -/
def exampleFullSimState : SimState :=
  ⟨[0], [0], [Formula.top], [[fun _ => none]], []⟩

/-- Claim C6, witness: at the concrete growing state the new sentence is
appended to the pool, and at the concrete exhausted state the position sets
stay untouched. -/
theorem new_sentence_frame_witness :
    (new_sentence_event exampleSimState 1 (fun _ => some true)).sentencepool = [0, 1]
    ∧ (new_sentence_event exampleFullSimState 1 (fun _ => some true)).positions =
        exampleFullSimState.positions := by
  constructor
  · have hlast : (exampleSimState.positions).getLastD [] = [fun _ => none] := rfl
    have h := (new_sentence_frame_effects exampleSimState 1 (fun _ => some true)).1
      ⟨by decide, by
        rw [hlast]
        intro p hp
        rw [List.mem_singleton.mp hp]⟩
    exact h.1
  · exact ((new_sentence_frame_effects exampleFullSimState 1
      (fun _ => some true)).2 (by decide)).2.2.1

/-- Modelled from the spec: the `introduction` event of `Simulation.run`
(spec section 4.6).  The functions `introduce` and `response` live in
`taupy/simulation/update.py`, which is not among the staged sources; per the
spec, a successful introduction appends the updated debate snapshot and the
position set produced by the update strategies, while a failed one only
leaves a log entry.  Success, the new snapshot and the new position set are
oracle inputs of the embedding. -/
def introduction_event (st : SimState) (success : Bool) (d : Formula)
    (ps : List Pos) : SimState :=
  if success then
    { st with
      history := st.history ++ [d]
      positions := st.positions ++ [ps]
      log := st.log ++ ["Argument introduction succeeded."] }
  else
    { st with log := st.log ++ ["Argument introduction did not succeed."] }

/-- One sampled step event of `Simulation.run`: an argument introduction
attempt or a `new_sentence` event, with all random outcomes explicit. -/
inductive SimEvent where
  | introduction (success : Bool) (d : Formula) (ps : List Pos)
  | newSentence (sel : Nat) (rand : Nat → Option Bool)

/-- Dispatch of one step of the `while True` loop of `Simulation.run` on the
sampled event. -/
def sim_step (st : SimState) : SimEvent → SimState
  | .introduction s d ps => introduction_event st s d ps
  | .newSentence sel rand => new_sentence_event st sel rand

/-- The step loop of `Simulation.run` along a given event trace. -/
def sim_run (st : SimState) : List SimEvent → SimState
  | [] => st
  | e :: es => sim_run (sim_step st e) es

/-- `Simulation.__init__` (`src/taupy/simulation/simulation.py`, lines
58-124): `init_positions` stores the single initial position set
(`self.positions.append(positions)`), and the debate history starts with
`EmptyDebate()` or the parent debate, so both histories start with exactly
one entry. -/
def sim_init (pool maxPool : List Nat) (initialPositions : List Pos)
    (parent : Option Formula) : SimState :=
  { sentencepool := pool
    maxSentencepool := maxPool
    history := [parent.getD Formula.top]
    positions := [initialPositions]
    log := [] }

theorem sim_step_append (st : SimState) (e : SimEvent) :
    (∃ h, (sim_step st e).history = st.history ++ h
      ∧ ∃ t, (sim_step st e).positions = st.positions ++ t
      ∧ h.length = t.length) := by
  cases e with
  | introduction s d ps =>
    simp only [sim_step]
    unfold introduction_event
    by_cases hs : s = true
    · rw [if_pos hs]
      exact ⟨[d], rfl, [ps], rfl, rfl⟩
    · rw [if_neg hs]
      exact ⟨[], by simp, [], by simp, rfl⟩
  | newSentence sel rand =>
    simp only [sim_step]
    unfold new_sentence_event
    by_cases hc : 0 < (sentence_candidates st).length
    · rw [if_pos hc]
      exact ⟨[st.history.getLastD Formula.top], rfl, [_], rfl, rfl⟩
    · rw [if_neg hc]
      exact ⟨[], by simp, [], by simp, rfl⟩

theorem sim_run_append (st : SimState) (es : List SimEvent) :
    (∃ h, (sim_run st es).history = st.history ++ h
      ∧ ∃ t, (sim_run st es).positions = st.positions ++ t
      ∧ h.length = t.length) := by
  induction es generalizing st with
  | nil => exact ⟨[], by simp [sim_run], [], by simp [sim_run], rfl⟩
  | cons e es ih =>
    obtain ⟨h1, hh1, t1, ht1, hl1⟩ := sim_step_append st e
    obtain ⟨h2, hh2, t2, ht2, hl2⟩ := ih (sim_step st e)
    refine ⟨h1 ++ h2, ?_, t1 ++ t2, ?_, ?_⟩
    · rw [show sim_run st (e :: es) = sim_run (sim_step st e) es from rfl,
        hh2, hh1, List.append_assoc]
    · rw [show sim_run st (e :: es) = sim_run (sim_step st e) es from rfl,
        ht2, ht1, List.append_assoc]
    · simp [hl1, hl2]

theorem sim_run_append_of_append (st : SimState) (es extra : List SimEvent) :
    sim_run st (es ++ extra) = sim_run (sim_run st es) extra := by
  induction es generalizing st with
  | nil => rfl
  | cons e es ih => exact ih (sim_step st e)

/-- Claim C7: at construction the number of debate snapshots equals the
number of position sets, the equality is preserved after every completed
step of the run, and the history is append-only: whatever has been recorded
up to any point of the run stays an unrewritten prefix of every later
state's history and position-set sequence. -/
theorem history_position_append_only (pool maxPool : List Nat)
    (initialPositions : List Pos) (parent : Option Formula)
    (es extra : List SimEvent) :
    (sim_init pool maxPool initialPositions parent).history.length =
        (sim_init pool maxPool initialPositions parent).positions.length
    ∧ (sim_run (sim_init pool maxPool initialPositions parent) es).history.length =
        (sim_run (sim_init pool maxPool initialPositions parent) es).positions.length
    ∧ (∃ h, (sim_run (sim_init pool maxPool initialPositions parent) (es ++ extra)).history =
        (sim_run (sim_init pool maxPool initialPositions parent) es).history ++ h)
    ∧ (∃ t, (sim_run (sim_init pool maxPool initialPositions parent) (es ++ extra)).positions =
        (sim_run (sim_init pool maxPool initialPositions parent) es).positions ++ t) := by
  have hinit : (sim_init pool maxPool initialPositions parent).history.length =
      (sim_init pool maxPool initialPositions parent).positions.length := rfl
  obtain ⟨h1, hh1, t1, ht1, hl1⟩ :=
    sim_run_append (sim_init pool maxPool initialPositions parent) es
  obtain ⟨h2, hh2, t2, ht2, hl2⟩ :=
    sim_run_append (sim_run (sim_init pool maxPool initialPositions parent) es) extra
  refine ⟨hinit, ?_, ?_, ?_⟩
  · rw [hh1, ht1, List.length_append, List.length_append, hinit, hl1]
  · rw [sim_run_append_of_append]
    exact ⟨h2, hh2⟩
  · rw [sim_run_append_of_append]
    exact ⟨t2, ht2⟩

/-- The termination test of `Simulation.run`
(`src/taupy/simulation/simulation.py`, line 264), evaluated after each step:
`self[-1].density() >= max_density or i >= max_steps or
satisfiability_count(self[-1]) <= min_sccp`.  Density values (Python
`Decimal` numbers) are embedded as rationals. -/
def simulation_run_stop (density maxDensity : ℚ)
    (steps maxSteps sccpSize minSccp : Nat) : Prop :=
  density ≥ maxDensity ∨ steps ≥ maxSteps ∨ sccpSize ≤ minSccp

instance (d m : ℚ) (i ms s msc : Nat) :
    Decidable (simulation_run_stop d m i ms s msc) := by
  unfold simulation_run_stop
  infer_instance

/-- The termination test of `FixedDebateSimulation.run`
(`src/taupy/simulation/simulation.py`, lines 480-483), evaluated before each
step: `(len(self.uncovered_arguments) > max_steps and
satisfiability_count(...) <= min_sccp) or (len(self.uncovered_arguments) > 1
and density > max_density)`. -/
def fixed_debate_run_stop (numUncovered maxSteps sccpSize minSccp : Nat)
    (density maxDensity : ℚ) : Prop :=
  (numUncovered > maxSteps ∧ sccpSize ≤ minSccp)
  ∨ (numUncovered > 1 ∧ density > maxDensity)

instance (n ms s msc : Nat) (d m : ℚ) :
    Decidable (fixed_debate_run_stop n ms s msc d m) := by
  unfold fixed_debate_run_stop
  infer_instance

/-- Claim C5, counterexample: at step count 300 with `max_steps = 200`, model
count 5, `min_sccp = 1`, density 0 and `max_density = 1`, the claimed
three-way disjunction holds (the step bound is exceeded), yet
`FixedDebateSimulation.run` does not stop there: its actual test demands the
step and SCCP bounds jointly. -/
theorem fixed_run_stop_counterexample :
    simulation_run_stop 0 1 300 200 5 1
    ∧ ¬ fixed_debate_run_stop 300 200 5 1 0 1 := by
  decide

/-- The `while True` loop of `Simulation.run` (lines 142-267), abstracted
over the per-step observations `dens i` and `sccpSize i` (density and model
count of the latest snapshot after step `i`): after each step the counter
advances and the termination test runs.  The structural `fuel` argument is
the remaining iteration allotment; `maxSteps + 1` is always enough because
the step-count disjunct fires at step `maxSteps` at the latest. -/
def run_loop (dens : Nat → ℚ) (sccpSize : Nat → Nat) (maxDensity : ℚ)
    (maxSteps minSccp : Nat) : Nat → Nat → Nat
  | i, 0 => i
  | i, fuel + 1 =>
    if simulation_run_stop (dens (i + 1)) maxDensity (i + 1) maxSteps
        (sccpSize (i + 1)) minSccp then i + 1
    else run_loop dens sccpSize maxDensity maxSteps minSccp (i + 1) fuel

/-- The step count at which the loop of `Simulation.run` terminates. -/
def simulation_run_steps (dens : Nat → ℚ) (sccpSize : Nat → Nat)
    (maxDensity : ℚ) (maxSteps minSccp : Nat) : Nat :=
  run_loop dens sccpSize maxDensity maxSteps minSccp 0 (maxSteps + 1)

theorem run_loop_first_stop (dens : Nat → ℚ) (sccpSize : Nat → Nat)
    (maxDensity : ℚ) (maxSteps minSccp : Nat) :
    ∀ fuel i, 1 ≤ fuel → maxSteps ≤ i + fuel →
      simulation_run_stop
          (dens (run_loop dens sccpSize maxDensity maxSteps minSccp i fuel))
          maxDensity (run_loop dens sccpSize maxDensity maxSteps minSccp i fuel)
          maxSteps
          (sccpSize (run_loop dens sccpSize maxDensity maxSteps minSccp i fuel))
          minSccp
        ∧ i < run_loop dens sccpSize maxDensity maxSteps minSccp i fuel
        ∧ ∀ j, i < j → j < run_loop dens sccpSize maxDensity maxSteps minSccp i fuel →
            ¬ simulation_run_stop (dens j) maxDensity j maxSteps (sccpSize j) minSccp := by
  intro fuel
  induction fuel with
  | zero => intro i h1 _; omega
  | succ f ih =>
    intro i _ hms
    unfold run_loop
    by_cases hstop : simulation_run_stop (dens (i + 1)) maxDensity (i + 1)
        maxSteps (sccpSize (i + 1)) minSccp
    · rw [if_pos hstop]
      exact ⟨hstop, by omega, fun j hj1 hj2 => by omega⟩
    · rw [if_neg hstop]
      cases f with
      | zero =>
        exact absurd (Or.inr (Or.inl (by omega))) hstop
      | succ g =>
        obtain ⟨hs, hlt, hnone⟩ := ih (i + 1) (by omega) (by omega)
        refine ⟨hs, by omega, ?_⟩
        intro j hj1 hj2
        rcases Nat.lt_or_ge j (i + 2) with hj | hj
        · have hji : j = i + 1 := by omega
          rw [hji]
          exact hstop
        · exact hnone j (by omega) hj2

/-- Claim C5 (amended): `Simulation.run` stops its step loop exactly at the
first step after which density ≥ max_density OR step count ≥ max_steps OR
model count ≤ min_sccp holds (aside from its separate early exit when no
argument can be introduced), while `FixedDebateSimulation.run` checks before
each step and stops exactly when (step count > max_steps AND model count ≤
min_sccp) OR (step count > 1 AND density > max_density), or when a step
uncovers no argument. -/
theorem run_stop_conditions_amended (dens : Nat → ℚ) (sccpSize : Nat → Nat)
    (maxDensity : ℚ) (maxSteps minSccp : Nat) :
    simulation_run_stop
        (dens (simulation_run_steps dens sccpSize maxDensity maxSteps minSccp))
        maxDensity (simulation_run_steps dens sccpSize maxDensity maxSteps minSccp)
        maxSteps
        (sccpSize (simulation_run_steps dens sccpSize maxDensity maxSteps minSccp))
        minSccp
    ∧ (∀ j, 1 ≤ j →
        j < simulation_run_steps dens sccpSize maxDensity maxSteps minSccp →
        ¬ simulation_run_stop (dens j) maxDensity j maxSteps (sccpSize j) minSccp)
    ∧ ∀ d m : ℚ, ∀ i ms s msc : Nat,
        (simulation_run_stop d m i ms s msc ↔ (d ≥ m ∨ i ≥ ms ∨ s ≤ msc))
        ∧ (fixed_debate_run_stop i ms s msc d m ↔
            ((i > ms ∧ s ≤ msc) ∨ (i > 1 ∧ d > m))) := by
  obtain ⟨hs, hlt, hnone⟩ := run_loop_first_stop dens sccpSize maxDensity
    maxSteps minSccp (maxSteps + 1) 0 (by omega) (by omega)
  exact ⟨hs, fun j hj1 hj2 => hnone j (by omega) hj2,
    fun d m i ms s msc => ⟨Iff.rfl, Iff.rfl⟩⟩

/-- Claim C5, witness: with constant density 0, constant model count 10,
`max_density = 1`, `max_steps = 2` and `min_sccp = 1`, the loop runs to step
2 and the termination test is indeed false at the intermediate step 1. -/
theorem run_stop_conditions_witness :
    ¬ simulation_run_stop 0 1 1 2 10 1 := by
  have h := (run_stop_conditions_amended (fun _ => 0) (fun _ => 10) 1 2 1).2.1
  have hm : simulation_run_steps (fun _ => (0 : ℚ)) (fun _ => 10) 1 2 1 = 2 := by
    decide
  rw [hm] at h
  exact h 1 (by omega) (by omega)

end Taupy
